import Mathlib

/-!
Shallow embedding of `src/streamlit_app.py` (Estacionamiento IPS: a parking
registration form writing rows to a Google Sheet, plus a dashboard tab that
aggregates the same sheet).

Python strings are modelled as `List Char` where character-level reasoning is
needed (the text normalizers) and as `String` elsewhere.  Spreadsheet cells are
modelled by `Cell`: the sheet stores strings, the app writes Python ints for
hours, and pandas normalization produces integers or missing values.  External
collaborators (gspread, the network) appear as explicit `Except` arguments: an
`Except.error m` argument models the corresponding Python call raising an
exception whose `repr` is `m`.
-/

/-- A spreadsheet / DataFrame cell. -/
inductive Cell where
  | str (s : String)
  | int (n : Int)
  | na
deriving DecidableEq

/-- Canonical column list `HEADERS` (src lines 89-100). -/
def HEADERS : List String :=
  ["timestamp", "registro_id",
   "nombre", "ci", "telefono", "email",
   "vehiculo_marca_modelo", "color", "placa",
   "unidad", "box", "lugar",
   "dia_semana", "hora",
   "observacion", "origen_app"]

/-- `DIAS_ORD` (src line 38). -/
def DIAS_ORD : List String :=
  ["Lunes", "Martes", "Miércoles", "Jueves", "Viernes", "Sábado", "Domingo"]

/-- `HORAS_ORD = list(range(0, 25))` (src line 39). -/
def HORAS_ORD : List Int := (List.range 25).map Int.ofNat

/-! ## Text normalizers (src lines 42-50)

Python's `str.upper` / `str.lower` agree with `Char.toUpper` / `Char.toLower`
on the basic latin range these helpers are used for. -/

/-- `_norm_placa` (src lines 48-50):
`(s or "").upper().replace("-", "").replace(" ", "").replace(".", "")`.
`replace(x, "")` with a single-character pattern deletes every occurrence. -/
def norm_placa (s : List Char) : List Char :=
  ((((s.map Char.toUpper).filter (fun c => c != '-')).filter
      (fun c => c != ' ')).filter (fun c => c != '.'))

/-- Python `str.strip()`: drop leading and trailing whitespace. -/
def pyStrip (s : List Char) : List Char :=
  ((s.dropWhile Char.isWhitespace).reverse.dropWhile Char.isWhitespace).reverse

/-- Python `str.split()` with no argument: split on runs of whitespace,
discarding empty pieces. -/
def pySplit : List Char → List (List Char)
  | [] => []
  | c :: cs =>
    if c.isWhitespace then pySplit cs
    else (c :: cs.takeWhile (fun d => !d.isWhitespace)) ::
      pySplit (cs.dropWhile (fun d => !d.isWhitespace))
termination_by l => l.length
decreasing_by
  · simp
  · exact Nat.lt_succ_of_le ((List.dropWhile_sublist _).length_le)

/-- Python `str.capitalize()`: first character uppercased, the rest lowercased. -/
def pyCapitalize : List Char → List Char
  | [] => []
  | c :: cs => c.toUpper :: cs.map Char.toLower

/-- Python `str.lower()`. -/
def pyLower (s : List Char) : List Char := s.map Char.toLower

/-- The list-comprehension body of `_to_title` (src line 44):
`w.capitalize() if len(w) > 2 else w.lower()`. -/
def titleWord (w : List Char) : List Char :=
  if 2 < w.length then pyCapitalize w else pyLower w

/-- `" ".join(parts)`. -/
def pyJoinSp : List (List Char) → List Char
  | [] => []
  | [t] => t
  | t :: ts => t ++ ' ' :: pyJoinSp ts

/-- `_to_title` (src lines 42-45). -/
def to_title (s : List Char) : List Char :=
  pyJoinSp ((pySplit (pyStrip s)).map titleWord)

/-! ## Header schema maintenance (src lines 103-113) -/

/-- Python `dict.fromkeys` de-duplication: keep the first occurrence of each
key, preserving first-seen order; `seen` accumulates the keys already kept. -/
def dedupKeepFirst {α : Type} [DecidableEq α] (seen : List α) : List α → List α
  | [] => []
  | x :: xs =>
    if x ∈ seen then dedupKeepFirst seen xs else x :: dedupKeepFirst (x :: seen) xs

/-- `merged = list(dict.fromkeys(current_headers + headers))` (src line 111). -/
def mergeHeaders (current_headers headers : List String) : List String :=
  dedupKeepFirst [] (current_headers ++ headers)

/-- `_ensure_headers` (src lines 103-113), modelled at the level of the header
row it leaves in the sheet.  `none` models a sheet with no values at all (the
function then appends the canonical header); otherwise the first stored row is
the current header, rewritten to the merged header when it differs. -/
def ensure_headers (current : Option (List String)) (headers : List String) :
    List String :=
  match current with
  | none => headers
  | some cur => if cur = headers then cur else mergeHeaders cur headers

/-! ## Append path (src lines 116-125) -/

/-- `append_form_rows` (src lines 116-125).  Each argument is the outcome of
one collaborator call inside the `try` block, in program order: building the
gspread client, opening the sheet, `_ensure_headers`, `ws.append_rows`.  Any
raised exception is caught and returned as `(False, repr(e))`; success returns
`(True, "OK")`.  The embedding is a total function: no outcome escapes as an
exception. -/
def append_form_rows (clientRes openRes ensureRes appendRes : Except String Unit) :
    Bool × String :=
  match clientRes with
  | .error e => (false, e)
  | .ok _ =>
    match openRes with
    | .error e => (false, e)
    | .ok _ =>
      match ensureRes with
      | .error e => (false, e)
      | .ok _ =>
        match appendRes with
        | .error e => (false, e)
        | .ok _ => (true, "OK")

/-! ## Read path (src lines 128-152) -/

/-- A DataFrame: a header naming the columns plus rows of cells. -/
structure Table where
  header : List String
  rows : List (List Cell)
deriving DecidableEq

/-- Value of `10 * n + digit c` accumulation over a digit string. -/
def digitsToNat (l : List Char) : Nat :=
  l.foldl (fun n c => 10 * n + (c.toNat - 48)) 0

/-- `pd.to_numeric(cell, errors="coerce")` on the integer-formatted strings
this sheet stores: a non-empty all-digit string parses, anything else coerces
to missing. -/
def parseIntCell (s : String) : Cell :=
  if s.data ≠ [] ∧ s.data.all Char.isDigit then .int (digitsToNat s.data) else .na

/-- `pd.to_numeric(..., errors="coerce")` on one cell (src line 149). -/
def toNumericCell : Cell → Cell
  | .str s => parseIntCell s
  | .int n => .int n
  | .na => .na

/-- `pd.Categorical(..., categories=DIAS_ORD, ordered=True)` on one cell
(src line 151): values outside the category list become missing. -/
def toCategoricalCell : Cell → Cell
  | .str s => if s ∈ DIAS_ORD then .str s else .na
  | .int _ => .na
  | .na => .na

/-- `if col in df.columns: df[col] = f(df[col])`: apply `f` down the column
named `col` when the header has it (first occurrence, as pandas label lookup). -/
def applyAtCol (header : List String) (col : String) (f : Cell → Cell)
    (rows : List (List Cell)) : List (List Cell) :=
  match header.findIdx? (fun h => h == col) with
  | none => rows
  | some i => rows.map (fun r => r.set i (f (r.getD i .na)))

/-- The two "Normalizaciones mínimas" of `load_data` (src lines 147-151). -/
def normalizeTable (t : Table) : Table :=
  { header := t.header
    rows := applyAtCol t.header "dia_semana" toCategoricalCell
      (applyAtCol t.header "hora" toNumericCell t.rows) }

/-- `load_data` (src lines 128-152).  `primary` is the outcome of the whole
Sheets attempt (client + open + `_ensure_headers` + `get_all_values`);
`secondary` is the outcome of `pd.read_csv(GITHUB_CSV_RAW_URL)`.  An empty
primary value list returns the canonical empty frame before normalization
(the early `return` at src line 138); a raised primary exception falls back to
the CSV, and a second failure yields the canonical empty frame. -/
def load_data (primary : Except String (List (List String)))
    (secondary : Except String Table) : Table :=
  match primary with
  | .ok [] => { header := HEADERS, rows := [] }
  | .ok (hdr :: rest) =>
    normalizeTable { header := hdr, rows := rest.map (fun r => r.map Cell.str) }
  | .error _ =>
    match secondary with
    | .ok t => normalizeTable t
    | .error _ => normalizeTable { header := HEADERS, rows := [] }

/-! ## Submission expansion (src lines 192-209) -/

/-- The `base` row assembled on submit (src lines 194-202): sixteen entries in
`HEADERS` order, with `""` placeholders at positions 12 and 13, which the
comment marks as `dia_semana, hora -> se completan más abajo`. -/
def submissionBase (ts rid nombre ci telefono email vehiculo color placa
    unidad box lugar observ : String) : List Cell :=
  [.str ts, .str rid,
   .str nombre, .str ci, .str telefono, .str email,
   .str vehiculo, .str color, .str placa,
   .str unidad, .str box, .str lugar,
   .str "", .str "",
   .str observ, .str "streamlit"]

/-- The expansion loop (src lines 203-209): for each selected day `d` and each
selected hour `h`, in selection order, copy `base` and assign
`row[13] = d; row[14] = int(h)`. -/
def buildRows (base : List Cell) (dias_sel : List String) (horas_sel : List Int) :
    List (List Cell) :=
  dias_sel.flatMap (fun d =>
    horas_sel.map (fun h => (base.set 13 (.str d)).set 14 (.int h)))

/-! ## Read cache and submit flow (src lines 128, 211-216) -/

/-- The sheet contents together with the one `@st.cache_data(ttl=60)` slot
guarding `load_data`: `some (t, v)` is a value `v` fetched at time `t`. -/
structure AppState where
  sheetRows : List (List Cell)
  cache : Option (Nat × List (List Cell))
deriving DecidableEq

/-- The `ttl=60` of the cache decorator (src line 128), in seconds. -/
def CACHE_TTL : Nat := 60

/-- One dashboard read at time `now`: serve the cached value while it is
fresh, otherwise fetch from the sheet and repopulate the cache slot. -/
def cachedRead (now : Nat) (s : AppState) : List (List Cell) × AppState :=
  match s.cache with
  | some (t, v) =>
    if now < t + CACHE_TTL then (v, s)
    else (s.sheetRows, { s with cache := some (now, s.sheetRows) })
  | none => (s.sheetRows, { s with cache := some (now, s.sheetRows) })

/-- The submit-handler tail (src lines 211-216): `ok, msg = append_form_rows(rows)`;
on `ok` the rows are now appended in the sheet and `st.cache_data.clear()`
empties the cache slot; on failure nothing changes.  `backendOk` is the
boolean returned by `append_form_rows`. -/
def submitRegistro (backendOk : Bool) (rows : List (List Cell)) (s : AppState) :
    AppState :=
  if backendOk then { sheetRows := s.sheetRows ++ rows, cache := none } else s

/-! ## Dashboard filters and aggregation (src lines 222-295) -/

/-- One dashboard row after `load_data` normalization, restricted to the
columns the tablero reads.  `dia_semana` is categorical over `DIAS_ORD`
(missing if outside), `hora` is nullable-integer. -/
structure Record where
  registro_id : String
  nombre : String
  ci : String
  placa : String
  unidad : String
  dia_semana : Option String
  hora : Option Int
deriving DecidableEq

/-- `if f_unidades: q = q[q["unidad"].isin(f_unidades)]` (src lines 239-240);
an empty Python list is falsy, so an empty selection applies no restriction. -/
def filterUnidades (f_unidades : List String) (q : List Record) : List Record :=
  if f_unidades = [] then q else q.filter (fun r => f_unidades.contains r.unidad)

/-- `if f_dias: q = q[q["dia_semana"].isin(f_dias)]` (src lines 241-242);
a missing day is never `isin` a list. -/
def filterDias (f_dias : List String) (q : List Record) : List Record :=
  if f_dias = [] then q
  else q.filter (fun r =>
    match r.dia_semana with
    | some d => f_dias.contains d
    | none => false)

/-- `if f_horas: q = q[q["hora"].isin(f_horas)]` (src lines 243-244);
a missing hour is never `isin` a list. -/
def filterHoras (f_horas : List Int) (q : List Record) : List Record :=
  if f_horas = [] then q
  else q.filter (fun r =>
    match r.hora with
    | some h => f_horas.contains h
    | none => false)

/-- The filter block (src lines 238-244), applied in program order. -/
def applyFilters (f_unidades f_dias : List String) (f_horas : List Int)
    (q : List Record) : List Record :=
  filterHoras f_horas (filterDias f_dias (filterUnidades f_unidades q))

/-- `len(q)` (src line 248). -/
def metricRegistros (q : List Record) : Nat := q.length

/-- pandas `Series.nunique` on a string column: the number of distinct values
(src lines 249-251). -/
def nuniqueBy (f : Record → String) (q : List Record) : Nat :=
  (dedupKeepFirst [] (q.map f)).length

/-- Lexicographic order on character lists, the ascending string order pandas
uses for group keys (structurally recursive, so concrete instances evaluate). -/
def charListLe : List Char → List Char → Bool
  | [], _ => true
  | _ :: _, [] => false
  | a :: as, b :: bs => if a = b then charListLe as bs else decide (a < b)

/-- Ascending string order for pandas group keys. -/
def strLE (a b : String) : Prop := charListLe a.data b.data = true

instance : DecidableRel strLE := fun a b =>
  inferInstanceAs (Decidable (charListLe a.data b.data = true))

/-- `q.groupby(key)[...].count().reset_index(name="n")`: one `(key, count)`
pair per distinct key; pandas sorts the group keys ascending by `le`.
`sort_values` and the groupby key sort are modelled by `List.insertionSort`
(pandas leaves tie order unspecified; any sort realises the contract). -/
def groupCountsBy {α : Type} [DecidableEq α] (le : α → α → Prop) [DecidableRel le]
    (key : Record → α) (q : List Record) : List (α × Nat) :=
  ((dedupKeepFirst [] (q.map key)).insertionSort le).map
    (fun k => (k, q.countP (fun r => decide (key r = k))))

/-- Descending order on the `n` column (`sort_values("n", ascending=False)`). -/
def countDesc {α : Type} (a b : α × Nat) : Prop := b.2 ≤ a.2

instance {α : Type} : DecidableRel (countDesc (α := α)) := fun a b =>
  inferInstanceAs (Decidable (b.2 ≤ a.2))

instance {α : Type} : IsTotal (α × Nat) countDesc :=
  ⟨fun a b => Nat.le_total b.2 a.2⟩

instance {α : Type} : IsTrans (α × Nat) countDesc :=
  ⟨fun _ _ _ h h' => Nat.le_trans h' h⟩

/-- `by_unidad` (src lines 255-260): counts per unit, descending by count. -/
def by_unidad (q : List Record) : List (String × Nat) :=
  (groupCountsBy strLE (fun r => r.unidad) q).insertionSort countDesc

/-- Rank of a categorical day for sorting: position in `DIAS_ORD`, missing
values last (pandas `na_position="last"`). -/
def diaRank (d : Option String) : Nat :=
  match d with
  | some s =>
    match DIAS_ORD.findIdx? (fun x => x == s) with
    | some i => i
    | none => DIAS_ORD.length
  | none => DIAS_ORD.length

/-- Hour order with missing values last. -/
def horaLeB : Option Int → Option Int → Bool
  | none, none => true
  | none, some _ => false
  | some _, none => true
  | some x, some y => decide (x ≤ y)

/-- Lexicographic `(dia_semana, hora)` key order: categorical day order then
numeric hour order. -/
def gridKeyLe (a b : Option String × Option Int) : Prop :=
  if diaRank a.1 = diaRank b.1 then horaLeB a.2 b.2 = true
  else diaRank a.1 < diaRank b.1

instance : DecidableRel gridKeyLe := fun a b => by
  unfold gridKeyLe; infer_instance

/-- Relation used by `sort_values(["dia_semana", "hora"])` on grid entries. -/
def gridRowLe (a b : (Option String × Option Int) × Nat) : Prop :=
  gridKeyLe a.1 b.1

instance : DecidableRel gridRowLe := fun a b =>
  inferInstanceAs (Decidable (gridKeyLe a.1 b.1))

/-- The heatmap grid (src lines 270-277): counts per `(dia_semana, hora)` pair
present in `q`, sorted by day order then hour (`sort_values(["dia_semana",
"hora"])` after re-categorizing, which reorders but never adds pairs). -/
def grid (q : List Record) : List ((Option String × Option Int) × Nat) :=
  (groupCountsBy gridKeyLe (fun r => (r.dia_semana, r.hora)) q).insertionSort
    gridRowLe

/-- `top_personas` before the `head` truncation (src lines 288-292): counts
per person name, descending by count. -/
def personCountsDesc (q : List Record) : List (String × Nat) :=
  (groupCountsBy strLE (fun r => r.nombre) q).insertionSort countDesc

/-- `top_personas` (src lines 288-294): `.head(20)` of the descending counts. -/
def top_personas (q : List Record) : List (String × Nat) :=
  (personCountsDesc q).take 20

/-- Modelled from the spec: the Aggregator contract's "top-N persons by record
count, N configurable, default 20".  The code's `top_personas` is this family
at the default `n = 20`. -/
def topPersonasSpecN (n : Nat) (q : List Record) : List (String × Nat) :=
  (personCountsDesc q).take n

/-- A concrete dashboard record set with 21 distinct person names (one record
each), used to exercise the top-20 truncation on concrete data. -/
def demoQ : List Record :=
  (List.range 21).map (fun i =>
    { registro_id := toString i, nombre := "a" ++ toString i, ci := "", placa := "",
      unidad := "", dia_semana := none, hora := none })

/-! ## Theorems -/

/-- C4: `append_form_rows` communicates failure as a result value and never
raises to the caller: the embedding is a total function over every outcome of
the credential, sheet-open, schema and append calls; whichever collaborator
call fails first, the caller receives `(False, repr(e))` carrying that call's
diagnostic, and `(True, "OK")` when everything succeeds. -/
theorem append_form_rows_result (c o en a : Except String Unit) :
    (append_form_rows c o en a = (true, "OK") ∨
      (append_form_rows c o en a).1 = false) ∧
    (∀ e, append_form_rows (.error e) o en a = (false, e)) ∧
    (∀ e, append_form_rows (.ok ()) (.error e) en a = (false, e)) ∧
    (∀ e, append_form_rows (.ok ()) (.ok ()) (.error e) a = (false, e)) ∧
    (∀ e, append_form_rows (.ok ()) (.ok ()) (.ok ()) (.error e) = (false, e)) ∧
    append_form_rows (.ok ()) (.ok ()) (.ok ()) (.ok ()) = (true, "OK") := by
  refine ⟨?_, fun e => rfl, fun e => rfl, fun e => rfl, fun e => rfl, rfl⟩
  rcases c with e | u
  · exact Or.inr rfl
  · rcases o with e | u
    · exact Or.inr rfl
    · rcases en with e | u
      · exact Or.inr rfl
      · rcases a with e | u
        · exact Or.inr rfl
        · exact Or.inl rfl

/-- C3: `load_data` never raises (it is a total function of the two read
outcomes) and degrades: when the primary Sheets read fails it serves the CSV
snapshot, and when that also fails it returns an empty table whose header is
exactly the canonical column list. -/
theorem load_data_fallback (e e' : String) (t : Table) :
    load_data (.error e) (.ok t) = normalizeTable t ∧
    load_data (.error e) (.error e') = { header := HEADERS, rows := [] } ∧
    (load_data (.error e) (.error e')).header = HEADERS := by
  refine ⟨rfl, ?_, ?_⟩ <;> rfl

/-- C9: after a successful append, the cache slot is cleared unconditionally,
so a read at any later time fetches from the sheet and observes exactly the
pre-append rows followed by the newly appended ones — never a pre-append
cached value. -/
theorem submit_invalidates_cache (s : AppState) (rows : List (List Cell))
    (now : Nat) :
    (submitRegistro true rows s).cache = none ∧
    (cachedRead now (submitRegistro true rows s)).1 = s.sheetRows ++ rows := by
  constructor <;> simp [submitRegistro, cachedRead]

/-- C10: an empty selection on a filter dimension applies no restriction:
that `isin` step is skipped entirely, so the result equals the record set
filtered only by the other dimensions, and with all three selections empty
the result is the whole record set (not zero records). -/
theorem empty_filter_no_restriction (q : List Record) (us ds : List String)
    (hs : List Int) :
    applyFilters [] ds hs q = filterHoras hs (filterDias ds q) ∧
    applyFilters us [] hs q = filterHoras hs (filterUnidades us q) ∧
    applyFilters us ds [] q = filterDias ds (filterUnidades us q) ∧
    applyFilters [] [] [] q = q := by
  refine ⟨?_, ?_, ?_, ?_⟩ <;>
    simp [applyFilters, filterUnidades, filterDias, filterHoras]

/-- C7: the Aggregator over the empty record set fails nowhere (each
aggregation is a total computable function) and yields total count 0, zero
distinct persons, vehicles and units, and empty by-unit, by-(day, hour) and
top-person groupings. -/
theorem aggregator_empty :
    metricRegistros [] = 0 ∧
    nuniqueBy (fun r => r.ci) [] = 0 ∧
    nuniqueBy (fun r => r.placa) [] = 0 ∧
    nuniqueBy (fun r => r.unidad) [] = 0 ∧
    by_unidad [] = [] ∧
    grid [] = [] ∧
    top_personas [] = [] :=
  ⟨rfl, rfl, rfl, rfl, rfl, rfl, rfl⟩

/-! ### Header-merge lemmas (for C2) -/

theorem dedupKeepFirst_congr {α : Type} [DecidableEq α] {s s' : List α}
    (h : ∀ x : α, x ∈ s ↔ x ∈ s') (l : List α) :
    dedupKeepFirst s l = dedupKeepFirst s' l := by
  induction l generalizing s s' with
  | nil => rfl
  | cons x xs ih =>
    by_cases hx : x ∈ s
    · rw [dedupKeepFirst, if_pos hx, dedupKeepFirst, if_pos ((h x).mp hx)]
      exact ih h
    · rw [dedupKeepFirst, if_neg hx, dedupKeepFirst, if_neg (fun hc => hx ((h x).mpr hc))]
      refine congrArg _ (ih ?_)
      intro y
      simp only [List.mem_cons]
      exact or_congr Iff.rfl (h y)

theorem dedupKeepFirst_append {α : Type} [DecidableEq α] (s l₁ l₂ : List α) :
    dedupKeepFirst s (l₁ ++ l₂)
      = dedupKeepFirst s l₁ ++ dedupKeepFirst (l₁ ++ s) l₂ := by
  induction l₁ generalizing s with
  | nil => rfl
  | cons x xs ih =>
    by_cases hx : x ∈ s
    · rw [List.cons_append, dedupKeepFirst, if_pos hx, dedupKeepFirst, if_pos hx, ih]
      refine congrArg _ (dedupKeepFirst_congr ?_ l₂)
      intro y
      simp only [List.mem_append, List.mem_cons]
      constructor
      · tauto
      · rintro ((rfl | hy) | hy)
        · exact Or.inr hx
        · exact Or.inl hy
        · exact Or.inr hy
    · rw [List.cons_append, dedupKeepFirst, if_neg hx, dedupKeepFirst, if_neg hx,
        List.cons_append, ih]
      refine congrArg _ (congrArg _ (dedupKeepFirst_congr ?_ l₂))
      intro y
      simp only [List.mem_append, List.mem_cons]
      tauto

theorem dedupKeepFirst_of_nodup {α : Type} [DecidableEq α] {l : List α}
    (hl : l.Nodup) (s : List α) :
    dedupKeepFirst s l = l.filter (fun x => decide (x ∉ s)) := by
  induction l generalizing s with
  | nil => rfl
  | cons x xs ih =>
    have hx : x ∉ xs := (List.nodup_cons.mp hl).1
    have hxs : xs.Nodup := (List.nodup_cons.mp hl).2
    by_cases hs : x ∈ s
    · rw [dedupKeepFirst, if_pos hs, ih hxs]
      rw [List.filter_cons]
      simp [hs]
    · rw [dedupKeepFirst, if_neg hs, ih hxs, List.filter_cons]
      simp only [hs, not_false_eq_true, decide_True, if_true]
      refine congrArg _ (List.filter_congr ?_)
      intro y hy
      have : y ≠ x := fun h => hx (h ▸ hy)
      simp [List.mem_cons, this, hs]

/-- C2: on a header row without duplicate names, the `_ensure_headers` merge
keeps every existing column in its existing relative order as a prefix and
appends, at the end, exactly the canonical columns not already present (in
canonical order); in particular no pre-existing column is dropped, even one
absent from the canonical list. -/
theorem ensure_headers_merge (cur : List String) (h : cur.Nodup) :
    ensure_headers (some cur) HEADERS
      = cur ++ HEADERS.filter (fun c => decide (c ∉ cur)) ∧
    ∀ c ∈ cur, c ∈ ensure_headers (some cur) HEADERS := by
  have hH : HEADERS.Nodup := by decide
  have key : mergeHeaders cur HEADERS
      = cur ++ HEADERS.filter (fun c => decide (c ∉ cur)) := by
    rw [mergeHeaders, dedupKeepFirst_append, dedupKeepFirst_of_nodup h,
      dedupKeepFirst_of_nodup hH]
    have h1 : cur.filter (fun x => decide (x ∉ ([] : List String))) = cur := by
      simp
    have h2 : HEADERS.filter (fun c => decide (c ∉ cur ++ ([] : List String)))
        = HEADERS.filter (fun c => decide (c ∉ cur)) := by
      refine List.filter_congr ?_
      intro y _
      simp
    rw [h1, h2]
  constructor
  · rw [ensure_headers]
    by_cases hc : cur = HEADERS
    · subst hc
      rw [if_pos rfl]
      have : HEADERS.filter (fun c => decide (c ∉ HEADERS)) = [] := by decide
      rw [this, List.append_nil]
    · rw [if_neg hc]
      exact key
  · intro c hc
    rw [ensure_headers]
    by_cases he : cur = HEADERS
    · rw [if_pos he]
      exact hc
    · rw [if_neg he, key]
      exact List.mem_append_left _ hc

/-- Witness for `ensure_headers_merge` at a concrete legacy header: the
pre-existing columns (including `legacy`, absent from the canonical list)
survive in order as a prefix, and only the missing canonical columns are
appended at the end. -/
theorem ensure_headers_merge_witness :
    ensure_headers (some ["legacy", "timestamp", "placa"]) HEADERS
      = ["legacy", "timestamp", "placa", "registro_id", "nombre", "ci",
         "telefono", "email", "vehiculo_marca_modelo", "color", "unidad",
         "box", "lugar", "dia_semana", "hora", "observacion", "origen_app"] ∧
    "legacy" ∈ ensure_headers (some ["legacy", "timestamp", "placa"]) HEADERS := by
  have h := ensure_headers_merge ["legacy", "timestamp", "placa"] (by decide)
  refine ⟨?_, h.2 "legacy" (by decide)⟩
  rw [h.1]
  rfl

/-- C1, evaluated at a failing input (one day `"Lunes"`, one hour `8`,
observation `"nota"`): the expansion loop writes the day into position 13 —
the `hora` column — and the hour into position 14 — the `observacion` column,
overwriting the note — while position 12, the `dia_semana` column, keeps its
`""` placeholder.  The persisted (dia_semana, hora) slot is `("", "Lunes")`,
not `("Lunes", 8)`: the stored slots do not realise the selected day-hour
Cartesian product, contradicting the code's own placeholder comment. -/
theorem buildRows_slot_misaligned :
    HEADERS.getD 12 "" = "dia_semana" ∧
    HEADERS.getD 13 "" = "hora" ∧
    HEADERS.getD 14 "" = "observacion" ∧
    buildRows (submissionBase "2024-01-01T00:00:00" "rid-1" "Ana" "123" "" ""
        "" "" "ABC123" "UTI" "" "" "nota") ["Lunes"] [8]
      = [[.str "2024-01-01T00:00:00", .str "rid-1", .str "Ana", .str "123",
          .str "", .str "", .str "", .str "", .str "ABC123", .str "UTI",
          .str "", .str "", .str "", .str "Lunes", .int 8, .str "streamlit"]] :=
  ⟨rfl, rfl, rfl, rfl⟩

/-! ### Character case lemmas (for C5 and C6) -/

/-- `Char.ofNat` round-trips on the basic latin letter range (kernel table
check over `m < 123`). -/
theorem charOfNat_toNat_latin : ∀ m, m < 123 → (65 ≤ m → (Char.ofNat m).toNat = m) := by
  decide

theorem toUpper_toNat_of_lower {c : Char} (h : 97 ≤ c.toNat) (h' : c.toNat ≤ 122) :
    c.toUpper.toNat = c.toNat - 32 := by
  unfold Char.toUpper
  rw [if_pos ⟨h, h'⟩]
  exact charOfNat_toNat_latin (c.toNat - 32) (by omega) (by omega)

theorem toUpper_eq_of_not_lower {c : Char} (h : ¬(97 ≤ c.toNat ∧ c.toNat ≤ 122)) :
    c.toUpper = c := by
  unfold Char.toUpper
  exact if_neg h

theorem toUpper_not_lower (c : Char) :
    ¬(97 ≤ c.toUpper.toNat ∧ c.toUpper.toNat ≤ 122) := by
  by_cases h : 97 ≤ c.toNat ∧ c.toNat ≤ 122
  · have := toUpper_toNat_of_lower h.1 h.2
    omega
  · rw [toUpper_eq_of_not_lower h]
    exact h

theorem toUpper_idem (c : Char) : c.toUpper.toUpper = c.toUpper :=
  toUpper_eq_of_not_lower (toUpper_not_lower c)

theorem toLower_toNat_of_upper {c : Char} (h : 65 ≤ c.toNat) (h' : c.toNat ≤ 90) :
    c.toLower.toNat = c.toNat + 32 := by
  unfold Char.toLower
  rw [if_pos ⟨h, h'⟩]
  exact charOfNat_toNat_latin (c.toNat + 32) (by omega) (by omega)

theorem toLower_eq_of_not_upper {c : Char} (h : ¬(65 ≤ c.toNat ∧ c.toNat ≤ 90)) :
    c.toLower = c := by
  unfold Char.toLower
  exact if_neg h

theorem toLower_not_upper (c : Char) :
    ¬(65 ≤ c.toLower.toNat ∧ c.toLower.toNat ≤ 90) := by
  by_cases h : 65 ≤ c.toNat ∧ c.toNat ≤ 90
  · have := toLower_toNat_of_upper h.1 h.2
    omega
  · rw [toLower_eq_of_not_upper h]
    exact h

theorem toLower_idem (c : Char) : c.toLower.toLower = c.toLower :=
  toLower_eq_of_not_upper (toLower_not_upper c)

/-! ### C5: plate normalization -/

theorem mem_norm_placa {s : List Char} {c : Char} (h : c ∈ norm_placa s) :
    c ∈ s.map Char.toUpper ∧ c ≠ '-' ∧ c ≠ ' ' ∧ c ≠ '.' := by
  simp only [norm_placa, List.mem_filter, bne_iff_ne, ne_eq] at h
  obtain ⟨⟨⟨hm, h1⟩, h2⟩, h3⟩ := h
  exact ⟨hm, h1, h2, h3⟩

/-- C5: `_norm_placa` is idempotent, its output contains no hyphen, space or
period, no basic-latin lowercase letter survives in the output (letters come
out uppercase), and the empty string maps to the empty string. -/
theorem norm_placa_spec (s : List Char) :
    norm_placa (norm_placa s) = norm_placa s ∧
    (∀ c ∈ norm_placa s, c ≠ '-' ∧ c ≠ ' ' ∧ c ≠ '.') ∧
    (∀ c ∈ norm_placa s, ¬(97 ≤ c.toNat ∧ c.toNat ≤ 122)) ∧
    norm_placa [] = [] := by
  have hup : ∀ c ∈ norm_placa s, c.toUpper = c := by
    intro c hc
    obtain ⟨d, _, rfl⟩ := List.mem_map.mp (mem_norm_placa hc).1
    exact toUpper_idem d
  have hmap : (norm_placa s).map Char.toUpper = norm_placa s := by
    rw [List.map_congr_left hup]
    exact List.map_id _
  have hkeep : norm_placa (norm_placa s) = norm_placa s := by
    show ((((norm_placa s).map Char.toUpper).filter (fun c => c != '-')).filter
        (fun c => c != ' ')).filter (fun c => c != '.') = norm_placa s
    rw [hmap]
    rw [List.filter_eq_self.mpr, List.filter_eq_self.mpr, List.filter_eq_self.mpr]
    · intro c hc
      simpa using (mem_norm_placa hc).2.1
    · intro c hc
      simpa using (mem_norm_placa (List.mem_of_mem_filter hc)).2.2.1
    · intro c hc
      have hc' := List.mem_of_mem_filter (List.mem_of_mem_filter hc)
      simpa using (mem_norm_placa hc').2.2.2
  refine ⟨hkeep, ?_, ?_, rfl⟩
  · intro c hc
    exact (mem_norm_placa hc).2
  · intro c hc
    obtain ⟨d, _, rfl⟩ := List.mem_map.mp (mem_norm_placa hc).1
    exact toUpper_not_lower d

/-- Witness for `norm_placa_spec` at `"ab-1 2.c"`: the normalized plate is
`"AB12C"`, re-normalizing it is a no-op, and the listed member `'A'` is none
of the stripped characters and is not lowercase. -/
theorem norm_placa_spec_witness :
    norm_placa (norm_placa ['a', 'b', '-', '1', ' ', '2', '.', 'c'])
      = norm_placa ['a', 'b', '-', '1', ' ', '2', '.', 'c'] ∧
    norm_placa ['a', 'b', '-', '1', ' ', '2', '.', 'c'] = ['A', 'B', '1', '2', 'C'] ∧
    ('A' ≠ '-' ∧ 'A' ≠ ' ' ∧ 'A' ≠ '.') ∧
    ¬(97 ≤ 'A'.toNat ∧ 'A'.toNat ≤ 122) :=
  ⟨(norm_placa_spec ['a', 'b', '-', '1', ' ', '2', '.', 'c']).1, by decide,
   (norm_placa_spec ['a', 'b', '-', '1', ' ', '2', '.', 'c']).2.1 'A' (by decide),
   (norm_placa_spec ['a', 'b', '-', '1', ' ', '2', '.', 'c']).2.2.1 'A' (by decide)⟩

/-- C8: `top_personas` is the spec's configurable-N top-persons family at its
default N = 20: the 20-truncation of the person counts sorted in descending
count order; its entries are sorted descending by count, and any person count
left out of the listed top is at most every listed count. -/
theorem top_personas_spec (q : List Record) :
    top_personas q = topPersonasSpecN 20 q ∧
    List.Sorted countDesc (top_personas q) ∧
    ∀ b ∈ personCountsDesc q, b ∉ top_personas q →
      ∀ a ∈ top_personas q, b.2 ≤ a.2 := by
  have hs : List.Sorted countDesc (personCountsDesc q) :=
    List.sorted_insertionSort countDesc _
  refine ⟨rfl, List.Pairwise.sublist (List.take_sublist _ _) hs, ?_⟩
  intro b hb hbn a ha
  have hsplit : (personCountsDesc q).take 20 ++ (personCountsDesc q).drop 20
      = personCountsDesc q :=
    List.take_append_drop _ _
  have hbd : b ∈ (personCountsDesc q).drop 20 := by
    rcases List.mem_append.mp (hsplit ▸ hb) with h | h
    · exact absurd h hbn
    · exact h
  have hp : List.Pairwise countDesc
      ((personCountsDesc q).take 20 ++ (personCountsDesc q).drop 20) := by
    rw [hsplit]
    exact hs
  exact (List.pairwise_append.mp hp).2.2 a ha b hbd

/-- Witness for `top_personas_spec` on 21 distinct persons: the truncation
keeps 20 entries and the excluded person's count is bounded by a listed one. -/
theorem top_personas_spec_witness :
    top_personas demoQ = topPersonasSpecN 20 demoQ ∧
    (("a9", 1) : String × Nat).2 ≤ (("a0", 1) : String × Nat).2 :=
  ⟨(top_personas_spec demoQ).1,
   (top_personas_spec demoQ).2.2 ("a9", 1) (by decide) (by decide) ("a0", 1) (by decide)⟩

/-! ### C6: `_to_title` idempotence -/

theorem ws_toNat {c : Char} (h : c.isWhitespace = true) :
    c.toNat = 32 ∨ c.toNat = 9 ∨ c.toNat = 13 ∨ c.toNat = 10 := by
  simp only [Char.isWhitespace, Bool.or_eq_true, decide_eq_true_eq] at h
  rcases h with ((rfl | rfl) | rfl) | rfl
  · exact Or.inl rfl
  · exact Or.inr (Or.inl rfl)
  · exact Or.inr (Or.inr (Or.inl rfl))
  · exact Or.inr (Or.inr (Or.inr rfl))

theorem toUpper_isWhitespace (c : Char) :
    c.toUpper.isWhitespace = c.isWhitespace := by
  by_cases h : 97 ≤ c.toNat ∧ c.toNat ≤ 122
  · have h1 := toUpper_toNat_of_lower h.1 h.2
    have e1 : c.toUpper.isWhitespace = false := by
      cases hw : c.toUpper.isWhitespace with
      | false => rfl
      | true => rcases ws_toNat hw with h' | h' | h' | h' <;> omega
    have e2 : c.isWhitespace = false := by
      cases hw : c.isWhitespace with
      | false => rfl
      | true => rcases ws_toNat hw with h' | h' | h' | h' <;> omega
    rw [e1, e2]
  · rw [toUpper_eq_of_not_lower h]

theorem toLower_isWhitespace (c : Char) :
    c.toLower.isWhitespace = c.isWhitespace := by
  by_cases h : 65 ≤ c.toNat ∧ c.toNat ≤ 90
  · have h1 := toLower_toNat_of_upper h.1 h.2
    have e1 : c.toLower.isWhitespace = false := by
      cases hw : c.toLower.isWhitespace with
      | false => rfl
      | true => rcases ws_toNat hw with h' | h' | h' | h' <;> omega
    have e2 : c.isWhitespace = false := by
      cases hw : c.isWhitespace with
      | false => rfl
      | true => rcases ws_toNat hw with h' | h' | h' | h' <;> omega
    rw [e1, e2]
  · rw [toLower_eq_of_not_upper h]

theorem pyCapitalize_length (w : List Char) :
    (pyCapitalize w).length = w.length := by
  cases w with
  | nil => rfl
  | cons c cs => simp [pyCapitalize]

theorem titleWord_length (w : List Char) : (titleWord w).length = w.length := by
  unfold titleWord
  by_cases h : 2 < w.length
  · rw [if_pos h]
    exact pyCapitalize_length w
  · rw [if_neg h]
    simp [pyLower]

theorem pyCapitalize_idem (w : List Char) :
    pyCapitalize (pyCapitalize w) = pyCapitalize w := by
  cases w with
  | nil => rfl
  | cons c cs =>
    show c.toUpper.toUpper :: (cs.map Char.toLower).map Char.toLower
        = c.toUpper :: cs.map Char.toLower
    rw [toUpper_idem, List.map_map]
    exact congrArg _ (List.map_congr_left (fun d _ => toLower_idem d))

theorem pyLower_idem (w : List Char) : pyLower (pyLower w) = pyLower w := by
  show (w.map Char.toLower).map Char.toLower = w.map Char.toLower
  rw [List.map_map]
  exact List.map_congr_left (fun d _ => toLower_idem d)

theorem titleWord_idem (w : List Char) : titleWord (titleWord w) = titleWord w := by
  by_cases h : 2 < w.length
  · have hw : titleWord w = pyCapitalize w := by rw [titleWord, if_pos h]
    have hl : 2 < (titleWord w).length := by rw [titleWord_length]; exact h
    rw [hw] at hl
    rw [hw, titleWord, if_pos hl]
    exact pyCapitalize_idem w
  · have hw : titleWord w = pyLower w := by rw [titleWord, if_neg h]
    have hl : ¬ 2 < (titleWord w).length := by rw [titleWord_length]; exact h
    rw [hw] at hl
    rw [hw, titleWord, if_neg hl]
    exact pyLower_idem w

theorem titleWord_ne_nil {w : List Char} (hw : w ≠ []) : titleWord w ≠ [] := by
  intro h
  have := titleWord_length w
  rw [h] at this
  exact hw (List.eq_nil_of_length_eq_zero this.symm)

theorem mem_titleWord_ws {w : List Char} (hw : ∀ c ∈ w, c.isWhitespace = false)
    {c : Char} (hc : c ∈ titleWord w) : c.isWhitespace = false := by
  unfold titleWord at hc
  by_cases h : 2 < w.length
  · rw [if_pos h] at hc
    cases w with
    | nil => simp [pyCapitalize] at hc
    | cons a as =>
      rcases List.mem_cons.mp hc with rfl | hc'
      · rw [toUpper_isWhitespace]
        exact hw a (List.mem_cons_self a as)
      · obtain ⟨d, hd, rfl⟩ := List.mem_map.mp hc'
        rw [toLower_isWhitespace]
        exact hw d (List.mem_cons_of_mem a hd)
  · rw [if_neg h] at hc
    obtain ⟨d, hd, rfl⟩ := List.mem_map.mp hc
    rw [toLower_isWhitespace]
    exact hw d hd

theorem pySplit_ne_nil : ∀ {l : List Char}, ∀ t ∈ pySplit l, t ≠ [] := by
  intro l
  induction l using pySplit.induct with
  | case1 =>
    intro t ht
    simp [pySplit] at ht
  | case2 c cs hc ih =>
    intro t ht
    rw [pySplit, if_pos hc] at ht
    exact ih t ht
  | case3 c cs hc ih =>
    intro t ht
    rw [pySplit, if_neg hc] at ht
    rcases List.mem_cons.mp ht with rfl | ht'
    · simp
    · exact ih t ht'

theorem pySplit_no_ws :
    ∀ {l : List Char}, ∀ t ∈ pySplit l, ∀ c ∈ t, c.isWhitespace = false := by
  intro l
  induction l using pySplit.induct with
  | case1 =>
    intro t ht
    simp [pySplit] at ht
  | case2 c cs hc ih =>
    intro t ht
    rw [pySplit, if_pos hc] at ht
    exact ih t ht
  | case3 c cs hc ih =>
    intro t ht d hd
    rw [pySplit, if_neg hc] at ht
    rcases List.mem_cons.mp ht with rfl | ht'
    · rcases List.mem_cons.mp hd with rfl | hd'
      · cases h : d.isWhitespace with
        | false => rfl
        | true => exact absurd h hc
      · have := List.all_eq_true.mp
          (@List.all_takeWhile _ (fun d => !d.isWhitespace) cs) d hd'
        simpa using this
    · exact ih t ht' d hd

theorem pySplit_all_ws {m : List Char} (hm : ∀ c ∈ m, c.isWhitespace = true) :
    pySplit m = [] := by
  induction m with
  | nil => simp [pySplit]
  | cons c cs ih =>
    rw [pySplit, if_pos (hm c (List.mem_cons_self c cs))]
    exact ih (fun d hd => hm d (List.mem_cons_of_mem c hd))

theorem takeWhile_append_allneg {p : Char → Bool} {m : List Char}
    (hm : ∀ c ∈ m, p c = false) (l : List Char) :
    (l ++ m).takeWhile p = l.takeWhile p := by
  induction l with
  | nil =>
    cases m with
    | nil => rfl
    | cons c cs => simp [List.takeWhile_cons, hm c (List.mem_cons_self c cs)]
  | cons a l ih =>
    by_cases ha : p a
    · rw [List.cons_append, List.takeWhile_cons_of_pos ha,
        List.takeWhile_cons_of_pos ha, ih]
    · rw [List.cons_append, List.takeWhile_cons_of_neg ha,
        List.takeWhile_cons_of_neg ha]

theorem dropWhile_append_allneg {p : Char → Bool} {m : List Char}
    (hm : ∀ c ∈ m, p c = false) (l : List Char) :
    (l ++ m).dropWhile p = l.dropWhile p ++ m := by
  induction l with
  | nil =>
    cases m with
    | nil => rfl
    | cons c cs => simp [List.dropWhile_cons, hm c (List.mem_cons_self c cs)]
  | cons a l ih =>
    by_cases ha : p a
    · rw [List.cons_append, List.dropWhile_cons_of_pos ha,
        List.dropWhile_cons_of_pos ha, ih]
    · rw [List.cons_append, List.dropWhile_cons_of_neg ha,
        List.dropWhile_cons_of_neg ha, List.cons_append]

theorem pySplit_append_ws {m : List Char} (hm : ∀ c ∈ m, c.isWhitespace = true) :
    ∀ n l, l.length ≤ n → pySplit (l ++ m) = pySplit l := by
  intro n
  induction n with
  | zero =>
    intro l hl
    have h0 : l = [] := List.eq_nil_of_length_eq_zero (Nat.le_zero.mp hl)
    subst h0
    rw [List.nil_append, pySplit_all_ws hm]
    simp [pySplit]
  | succ n ih =>
    intro l hl
    cases l with
    | nil =>
      rw [List.nil_append, pySplit_all_ws hm]
      simp [pySplit]
    | cons c cs =>
      by_cases hc : c.isWhitespace = true
      · rw [List.cons_append, pySplit, if_pos hc]
        rw [pySplit, if_pos hc]
        exact ih cs (Nat.le_of_succ_le_succ hl)
      · have hm' : ∀ d ∈ m, (!d.isWhitespace) = false := by
          intro d hd
          simp [hm d hd]
        rw [List.cons_append, pySplit, if_neg hc]
        rw [pySplit, if_neg hc]
        rw [takeWhile_append_allneg hm', dropWhile_append_allneg hm']
        have hlen : (cs.dropWhile (fun d => !d.isWhitespace)).length ≤ n :=
          Nat.le_trans ((List.dropWhile_sublist _).length_le)
            (Nat.le_of_succ_le_succ hl)
        rw [ih _ hlen]

theorem pySplit_dropWhile (l : List Char) :
    pySplit (l.dropWhile Char.isWhitespace) = pySplit l := by
  induction l with
  | nil => rfl
  | cons c cs ih =>
    by_cases hc : c.isWhitespace = true
    · rw [List.dropWhile_cons_of_pos hc, ih, pySplit, if_pos hc]
    · rw [List.dropWhile_cons_of_neg hc]

theorem pySplit_strip (l : List Char) : pySplit (pyStrip l) = pySplit l := by
  show pySplit ((l.dropWhile Char.isWhitespace).reverse.dropWhile
    Char.isWhitespace).reverse = pySplit l
  set r := (l.dropWhile Char.isWhitespace).reverse with hr
  have hdec : (r.dropWhile Char.isWhitespace).reverse
      ++ (r.takeWhile Char.isWhitespace).reverse = l.dropWhile Char.isWhitespace := by
    rw [← List.reverse_append, List.takeWhile_append_dropWhile, hr,
      List.reverse_reverse]
  have hm : ∀ c ∈ (r.takeWhile Char.isWhitespace).reverse, c.isWhitespace = true := by
    intro c hc
    rw [List.mem_reverse] at hc
    exact List.all_eq_true.mp List.all_takeWhile c hc
  have h1 : pySplit ((r.dropWhile Char.isWhitespace).reverse
      ++ (r.takeWhile Char.isWhitespace).reverse)
      = pySplit (r.dropWhile Char.isWhitespace).reverse :=
    pySplit_append_ws hm _ _ (Nat.le_refl _)
  rw [hdec] at h1
  rw [← h1]
  exact pySplit_dropWhile l

theorem pySplit_join : ∀ {ts : List (List Char)}, (∀ t ∈ ts, t ≠ []) →
    (∀ t ∈ ts, ∀ c ∈ t, c.isWhitespace = false) → pySplit (pyJoinSp ts) = ts := by
  intro ts
  induction ts with
  | nil =>
    intro _ _
    simp [pyJoinSp, pySplit]
  | cons t ts ih =>
    intro hne hnw
    have ht : t ≠ [] := hne t (List.mem_cons_self _ _)
    obtain ⟨c, t', rfl⟩ := List.exists_cons_of_ne_nil ht
    have hcws : c.isWhitespace = false :=
      hnw (c :: t') (List.mem_cons_self _ _) c (List.mem_cons_self _ _)
    have ht'ws : ∀ d ∈ t', (!d.isWhitespace) = true := by
      intro d hd
      simp [hnw (c :: t') (List.mem_cons_self _ _) d (List.mem_cons_of_mem c hd)]
    cases ts with
    | nil =>
      show pySplit (c :: t') = [c :: t']
      rw [pySplit, if_neg (by simp [hcws])]
      have h1 : t'.takeWhile (fun d => !d.isWhitespace) = t' := by
        have h := @List.takeWhile_append_of_pos _ _ _ ([] : List Char) ht'ws
        simpa using h
      have h2 : t'.dropWhile (fun d => !d.isWhitespace) = [] := by
        have h := @List.dropWhile_append_of_pos _ _ _ ([] : List Char) ht'ws
        simpa using h
      rw [h1, h2]
      simp [pySplit]
    | cons u ts' =>
      show pySplit ((c :: t') ++ ' ' :: pyJoinSp (u :: ts')) = (c :: t') :: u :: ts'
      rw [List.cons_append, pySplit, if_neg (by simp [hcws])]
      have h1 : (t' ++ ' ' :: pyJoinSp (u :: ts')).takeWhile
          (fun d => !d.isWhitespace) = t' := by
        rw [List.takeWhile_append_of_pos ht'ws,
          List.takeWhile_cons_of_neg (by simp)]
        simp
      have h2 : (t' ++ ' ' :: pyJoinSp (u :: ts')).dropWhile
          (fun d => !d.isWhitespace) = ' ' :: pyJoinSp (u :: ts') := by
        rw [List.dropWhile_append_of_pos ht'ws,
          List.dropWhile_cons_of_neg (by simp)]
      rw [h1, h2, pySplit, if_pos (by simp)]
      rw [ih (fun x hx => hne x (List.mem_cons_of_mem _ hx))
        (fun x hx => hnw x (List.mem_cons_of_mem _ hx))]

/-- C6: `_to_title` is idempotent: re-normalizing an already normalized name
changes nothing, for every input string. -/
theorem to_title_idem (s : List Char) : to_title (to_title s) = to_title s := by
  have hne : ∀ t ∈ (pySplit (pyStrip s)).map titleWord, t ≠ [] := by
    intro t ht
    obtain ⟨w, hw, rfl⟩ := List.mem_map.mp ht
    exact titleWord_ne_nil (pySplit_ne_nil w hw)
  have hnw : ∀ t ∈ (pySplit (pyStrip s)).map titleWord,
      ∀ c ∈ t, c.isWhitespace = false := by
    intro t ht c hc
    obtain ⟨w, hw, rfl⟩ := List.mem_map.mp ht
    exact mem_titleWord_ws (pySplit_no_ws w hw) hc
  show pyJoinSp ((pySplit (pyStrip
      (pyJoinSp ((pySplit (pyStrip s)).map titleWord)))).map titleWord)
      = pyJoinSp ((pySplit (pyStrip s)).map titleWord)
  rw [pySplit_strip, pySplit_join hne hnw, List.map_map]
  exact congrArg _ (List.map_congr_left (fun w _ => titleWord_idem w))
